import Mathlib

/-!
Verification of the quadtree construction and sizing arithmetic of
`quadtree.py` (class `QuadTree`), embedded shallowly.

The bounding-box collaborator (`boundingbox.py`, imported as `bb`) is not
part of the core: following the specification, a bounding box is an opaque
value of an arbitrary type `Box`, and its `compute_quads` capability is an
arbitrary function `split : Box → List Box`.

Python specifics modelled faithfully:
* `self.quads` is a Python `dict` with `int` keys; we model it as an
  insertion-ordered association list (`Registry`).  Assigning to a key
  updates it in place or appends a fresh entry; `quads[k].append(x)` raises
  `KeyError` when `k` is missing, which we model with `Option`/`Except`.
* The recursion `recurse(bbox, depth)` only terminates because either the
  base case `self.depth == depth` fires or an append raises `KeyError`
  (or a loop body is empty); we therefore run it on fuel and show the fuel
  supplied by the constructor is always enough.
* The helpers `at_least` / `at_most` / `level` use Python's floating-point
  `math.log(size, 4)`; we model that logarithm by the exact base-4 integer
  ceiling/floor logarithm (`Nat.clog 4` / `Nat.log 4`).  IEEE-754 rounding
  of `math.log` itself is outside the embedding.
-/

namespace Quadtree

/-- A Python `dict` from `int` keys (here `ℕ`: the program only ever uses
keys `0, 1, 2, ...`) to lists of boxes, as an insertion-ordered
association list. -/
abbrev Registry (Box : Type) := List (ℕ × List Box)

/-- Runtime errors construction can raise: `KeyError` from
`self.quads[depth].append(quad)` when the key is absent, plus fuel
exhaustion (an artifact of running the recursion on fuel; shown
unreachable for the fuel the constructor supplies). -/
inductive PyErr : Type
  | keyError : ℕ → PyErr
  | fuelExhausted : PyErr
deriving DecidableEq, Repr

variable {Box : Type}

/-- `d[k]` read access on a Python dict: the value at the first (unique)
occurrence of the key, `none` when absent. -/
def dictLookup : Registry Box → ℕ → Option (List Box)
  | [], _ => none
  | (k, v) :: rest, key => if k = key then some v else dictLookup rest key

/-- `d[k] = v` on a Python dict: update the existing entry in place, or
append a fresh entry at the end. -/
def dictSet : Registry Box → ℕ → List Box → Registry Box
  | [], key, v => [(key, v)]
  | (k, w) :: rest, key, v =>
    if k = key then (k, v) :: rest else (k, w) :: dictSet rest key v

/-- `d[k].append(x)` on a Python dict of lists: `none` models the
`KeyError` raised when `k` is absent. -/
def dictAppendAt : Registry Box → ℕ → Box → Option (Registry Box)
  | [], _, _ => none
  | (k, v) :: rest, key, x =>
    if k = key then some ((k, v ++ [x]) :: rest)
    else
      match dictAppendAt rest key x with
      | none => none
      | some r => some ((k, v) :: r)

/-- `list(d.keys())` in insertion order. -/
def dictKeys (r : Registry Box) : List ℕ := r.map Prod.fst

/-- The registry the constructor has built just before calling
`self.recurse(bbox, 1)`:
`for x in range(depth): self.quads[x] = []` followed by
`self.quads[0] = [bbox]`.  Python's `range` of a non-positive `int` is
empty, hence `depth.toNat`. -/
def initQuads (bbox : Box) (depth : ℤ) : Registry Box :=
  dictSet
    ((List.range depth.toNat).foldl (fun m x => dictSet m x ([] : List Box)) [])
    0 [bbox]

/-- The `for quad in bbox.compute_quads():` loop body of
`QuadTree.recurse`: append `quad` to `self.quads[depth]` (possible
`KeyError`), then recurse one level deeper via `go`. -/
def recurseLoop (go : Box → Registry Box → Except PyErr (Registry Box)) :
    List Box → ℕ → Registry Box → Except PyErr (Registry Box)
  | [], _, reg => .ok reg
  | q :: rest, d, reg =>
    match dictAppendAt reg d q with
    | none => .error (.keyError d)
    | some reg1 =>
      match go q reg1 with
      | .error e => .error e
      | .ok reg2 => recurseLoop go rest d reg2

/-- `QuadTree.recurse(self, bbox, depth)`, with `selfDepth` playing
`self.depth`.  Returns the registry (`self.quads` after the call) or the
error raised.  Runs on fuel; `QuadTree.new` supplies enough. -/
def recurse (split : Box → List Box) (selfDepth : ℤ) :
    ℕ → Box → ℕ → Registry Box → Except PyErr (Registry Box)
  | 0, _, _, _ => .error .fuelExhausted
  | fuel + 1, b, d, reg =>
    if selfDepth = (d : ℤ) then .ok reg
    else recurseLoop (fun q r => recurse split selfDepth fuel q (d + 1) r) (split b) d reg

/-- A constructed `QuadTree` object: its `self.quads` registry and the
stored `self.depth`. -/
structure QuadTree (Box : Type) : Type where
  quads : Registry Box
  depth : ℤ
deriving DecidableEq

/-- `QuadTree.__init__(self, bbox, depth)`: build `initQuads`, then run
`self.recurse(bbox, 1)`.  The result is the constructed object, or the
error the constructor raises. -/
def QuadTree.new (split : Box → List Box) (bbox : Box) (depth : ℤ) :
    Except PyErr (QuadTree Box) :=
  (recurse split depth (depth.toNat + 1) bbox 1 (initQuads bbox depth)).map
    (fun reg => ⟨reg, depth⟩)

/-- `QuadTree.quadrants(self)`: returns the `quads` member. -/
def QuadTree.quadrants (qt : QuadTree Box) : Registry Box := qt.quads

/-- `QuadTree.at_least(size) = 4 ** int(math.ceil(math.log(size, 4)))`,
with the floating-point base-4 logarithm modelled exactly:
`int(math.ceil(math.log(n, 4))) = Nat.clog 4 n` for `n ≥ 1`. -/
def QuadTree.at_least (size : ℕ) : ℕ := 4 ^ Nat.clog 4 size

/-- `QuadTree.at_most(size) = 4 ** int(math.floor(math.log(size, 4)))`,
with the floating-point base-4 logarithm modelled exactly:
`int(math.floor(math.log(n, 4))) = Nat.log 4 n` for `n ≥ 1`. -/
def QuadTree.at_most (size : ℕ) : ℕ := 4 ^ Nat.log 4 size

/-- `QuadTree.level(size) = int(math.ceil(math.log(size, 4)))`, the
exponent `at_least` raises 4 to, modelled exactly as above. -/
def QuadTree.level (size : ℕ) : ℕ := Nat.clog 4 size

/-- The boxes a root box `b` contributes to relative level `k` of the
subdivision: level 0 is `[b]`, and each next level splits every box of
the previous one in order, children contiguous. -/
def levelBoxes (split : Box → List Box) (b : Box) : ℕ → List Box
  | 0 => [b]
  | k + 1 => (levelBoxes split b k).flatMap split

/-- The IEEE-754 binary64 value (as an exact natural number) that the
integer `n < 2 ^ 64` converts to: round to 53 significant bits, nearest,
ties to even.  This conversion is the one step of
`math.log(size, 4)` whose result is fully pinned down by IEEE 754:
CPython converts the `int` argument to a C double before taking any
logarithm, so `at_least` / `at_most` / `level` each factor through it —
whatever the C library's `log` then returns, inputs with the same
converted value get the same result. -/
def floatOfNat (n : ℕ) : ℕ :=
  let b := ((List.range 64).filter (fun i => 2 ^ i ≤ n)).length
  if b ≤ 53 then n
  else
    let s := b - 53
    let q := n / 2 ^ s
    let r := n % 2 ^ s
    if 2 * r < 2 ^ s then q * 2 ^ s
    else if 2 ^ s < 2 * r then (q + 1) * 2 ^ s
    else (if q % 2 = 0 then q else q + 1) * 2 ^ s

/-- The property the specification asserts of `at_least` at argument `n`
with result `v`: a power of 4, at least `n`, and minimal such.  The
result lives in `ℚ` so that any numeric value the program could return
(int or float) is covered. -/
def at_least_spec (n : ℕ) (v : ℚ) : Prop :=
  (∃ k : ℕ, v = 4 ^ k) ∧ (n : ℚ) ≤ v ∧ ∀ k : ℕ, (n : ℚ) ≤ 4 ^ k → v ≤ 4 ^ k

/-- The property the specification asserts of `at_most` at argument `n`
with result `v`: a power of 4, at most `n`, and maximal such. -/
def at_most_spec (n : ℕ) (v : ℚ) : Prop :=
  (∃ k : ℕ, v = 4 ^ k) ∧ v ≤ (n : ℚ) ∧ ∀ k : ℕ, (4 ^ k : ℚ) ≤ (n : ℚ) → 4 ^ k ≤ v

/-- The property the specification asserts of `level` at argument `n`
with result exponent `e`: `4 ^ e ≥ n`, and for `n > 1` also
`4 ^ (e - 1) < n`.  The exponent lives in `ℤ` since the program returns
a Python `int`. -/
def level_spec (n : ℕ) (e : ℤ) : Prop :=
  (n : ℚ) ≤ (4 : ℚ) ^ e ∧ (1 < n → (4 : ℚ) ^ (e - 1) < (n : ℚ))

/-! ### Dictionary lemmas -/

theorem dictAppendAt_eq_none {reg : Registry Box} {key : ℕ} {x : Box} :
    dictAppendAt reg key x = none ↔ dictLookup reg key = none := by
  induction reg with
  | nil => simp [dictAppendAt, dictLookup]
  | cons p rest ih =>
    obtain ⟨a, v⟩ := p
    by_cases hak : a = key
    · subst hak
      simp [dictAppendAt, dictLookup]
    · simp only [dictAppendAt, dictLookup, if_neg hak]
      rw [← ih]
      cases dictAppendAt rest key x <;> simp

theorem dictLookup_dictAppendAt {reg reg' : Registry Box} {key : ℕ} {x : Box}
    (h : dictAppendAt reg key x = some reg') (k : ℕ) :
    dictLookup reg' k =
      if k = key then (dictLookup reg key).map (fun v => v ++ [x])
      else dictLookup reg k := by
  induction reg generalizing reg' with
  | nil => simp [dictAppendAt] at h
  | cons p rest ih =>
    obtain ⟨a, v⟩ := p
    simp only [dictAppendAt] at h
    by_cases hak : a = key
    · rw [if_pos hak] at h
      subst hak
      rw [Option.some_inj] at h
      subst h
      rcases eq_or_ne k a with hka | hka
      · subst hka
        simp [dictLookup]
      · simp [dictLookup, hka, Ne.symm hka]
    · rw [if_neg hak] at h
      cases hrest : dictAppendAt rest key x with
      | none => rw [hrest] at h; exact absurd h (by simp)
      | some r =>
        rw [hrest, Option.some_inj] at h
        subst h
        rcases eq_or_ne a k with hka | hka
        · subst hka
          simp [dictLookup, hak]
        · simpa [dictLookup, hka, hak] using ih hrest

theorem dictKeys_dictAppendAt {reg reg' : Registry Box} {key : ℕ} {x : Box}
    (h : dictAppendAt reg key x = some reg') : dictKeys reg' = dictKeys reg := by
  induction reg generalizing reg' with
  | nil => simp [dictAppendAt] at h
  | cons p rest ih =>
    obtain ⟨a, v⟩ := p
    simp only [dictAppendAt] at h
    by_cases hak : a = key
    · rw [if_pos hak, Option.some_inj] at h
      subst h
      simp [dictKeys]
    · rw [if_neg hak] at h
      cases hrest : dictAppendAt rest key x with
      | none => rw [hrest] at h; exact absurd h (by simp)
      | some r =>
        rw [hrest, Option.some_inj] at h
        subst h
        simpa [dictKeys] using ih hrest

theorem dictAppendAt_isSome (x : Box) {reg : Registry Box} {key : ℕ}
    (h : (dictLookup reg key).isSome) : ∃ reg', dictAppendAt reg key x = some reg' := by
  cases hr : dictAppendAt reg key x with
  | none => rw [dictAppendAt_eq_none] at hr; rw [hr] at h; simp at h
  | some r => exact ⟨r, rfl⟩

/-! ### The initial registry -/

theorem dictLookup_range_map (f : ℕ → List Box) (n key : ℕ) :
    dictLookup ((List.range n).map (fun k => (k, f k))) key =
      if key < n then some (f key) else none := by
  induction n with
  | zero => simp [dictLookup]
  | succ m ih =>
    rw [List.range_succ, List.map_append]
    have happ : ∀ (r1 r2 : Registry Box) (k : ℕ),
        dictLookup (r1 ++ r2) k =
          match dictLookup r1 k with
          | some v => some v
          | none => dictLookup r2 k := by
      intro r1 r2 k
      induction r1 with
      | nil => simp [dictLookup]
      | cons p rest ihr =>
        obtain ⟨a, v⟩ := p
        by_cases hak : a = k
        · simp [dictLookup, hak]
        · simp [dictLookup, hak, ihr]
    rw [happ, ih]
    by_cases h1 : key < m
    · simp [h1, Nat.lt_succ_of_lt h1]
    · by_cases h2 : key = m
      · subst h2
        simp [h1, dictLookup]
      · have : ¬ key < m + 1 := by omega
        simp [h1, h2, this, dictLookup, Ne.symm h2]

theorem initQuads_eq (bbox : Box) (D : ℕ) (hD : 1 ≤ D) :
    initQuads bbox (D : ℤ) =
      (List.range D).map (fun k => (k, if k = 0 then [bbox] else [])) := by
  have hfold : ∀ n, (List.range n).foldl (fun m x => dictSet m x ([] : List Box)) [] =
      (List.range n).map (fun k => (k, ([] : List Box))) := by
    intro n
    induction n with
    | zero => simp
    | succ m ih =>
      rw [List.range_succ, List.foldl_append, ih, List.map_append]
      have hset : ∀ (r : Registry Box) (key : ℕ) (v : List Box),
          dictLookup r key = none → dictSet r key v = r ++ [(key, v)] := by
        intro r key v hnone
        induction r with
        | nil => simp [dictSet]
        | cons p rest ihr =>
          obtain ⟨a, w⟩ := p
          simp only [dictLookup] at hnone
          by_cases hak : a = key
          · rw [if_pos hak] at hnone; exact absurd hnone (by simp)
          · rw [if_neg hak] at hnone
            simp [dictSet, hak, ihr hnone]
      simp only [List.foldl_cons, List.foldl_nil]
      rw [hset _ m _ (by rw [dictLookup_range_map]; simp)]
      simp
  obtain ⟨m, rfl⟩ : ∃ m, D = m + 1 := ⟨D - 1, by omega⟩
  rw [initQuads, Int.toNat_natCast, hfold, List.range_succ_eq_map]
  simp only [List.map_cons, List.map_map]
  rw [dictSet]
  simp [Function.comp_def]

theorem initQuads_nonpos (bbox : Box) (depth : ℤ) (h : depth ≤ 0) :
    initQuads bbox depth = [(0, [bbox])] := by
  rw [initQuads, Int.toNat_eq_zero.mpr h]
  rfl

/-! ### What the recursion deposits at each level -/

theorem flatMap_levelBoxes_zero (split : Box → List Box) (qs : List Box) :
    qs.flatMap (fun q => levelBoxes split q 0) = qs := by
  simp [levelBoxes]

theorem flatMap_levelBoxes_succ (split : Box → List Box) (b : Box) (j : ℕ) :
    (split b).flatMap (fun q => levelBoxes split q j) = levelBoxes split b (j + 1) := by
  induction j with
  | zero => simp [levelBoxes]
  | succ j ih =>
    have hunf : ∀ (c : Box), levelBoxes split c (j + 1) = (levelBoxes split c j).flatMap split :=
      fun c => rfl
    calc (split b).flatMap (fun q => levelBoxes split q (j + 1))
        = (split b).flatMap (fun q => (levelBoxes split q j).flatMap split) := by
          simp only [hunf]
      _ = ((split b).flatMap (fun q => levelBoxes split q j)).flatMap split :=
          (List.flatMap_assoc (split b) _ split).symm
      _ = (levelBoxes split b (j + 1)).flatMap split := by rw [ih]
      _ = levelBoxes split b (j + 1 + 1) := rfl

/-- Invariant of the `for quad in bbox.compute_quads():` loop at level `d`
of a tree of total depth `D`: provided the recursive call `go` extends
every level in `[d+1, D)` by the sub-levels of its box, the loop over
`qs` extends every level in `[d, D)` by the concatenated sub-levels of
the boxes of `qs`, and touches nothing else. -/
theorem recurseLoop_spec (split : Box → List Box) (D : ℕ)
    (go : Box → Registry Box → Except PyErr (Registry Box)) (d : ℕ) (hd : d < D)
    (hgo : ∀ q reg, (∀ ℓ, d + 1 ≤ ℓ → ℓ < D → (dictLookup reg ℓ).isSome) →
      ∃ reg', go q reg = .ok reg' ∧ ∀ k, dictLookup reg' k =
        if d + 1 ≤ k ∧ k < D then
          (dictLookup reg k).map (fun v => v ++ levelBoxes split q (k - d))
        else dictLookup reg k) :
    ∀ (qs : List Box) (reg : Registry Box),
      (∀ ℓ, d ≤ ℓ → ℓ < D → (dictLookup reg ℓ).isSome) →
      ∃ reg', recurseLoop go qs d reg = .ok reg' ∧ ∀ k, dictLookup reg' k =
        if d ≤ k ∧ k < D then
          (dictLookup reg k).map
            (fun v => v ++ qs.flatMap (fun q => levelBoxes split q (k - d)))
        else dictLookup reg k := by
  intro qs
  induction qs with
  | nil =>
    intro reg hreg
    refine ⟨reg, rfl, fun k => ?_⟩
    by_cases hk : d ≤ k ∧ k < D
    · rw [if_pos hk]
      cases dictLookup reg k <;> simp
    · rw [if_neg hk]
  | cons q rest ih =>
    intro reg hreg
    obtain ⟨reg1, hreg1⟩ := dictAppendAt_isSome q (hreg d le_rfl hd)
    have hlook1 := dictLookup_dictAppendAt hreg1
    have hsome1 : ∀ ℓ, d ≤ ℓ → ℓ < D → (dictLookup reg1 ℓ).isSome := by
      intro ℓ h1 h2
      rw [hlook1 ℓ]
      by_cases hld : ℓ = d
      · rw [if_pos hld]
        have h3 := hreg d le_rfl hd
        revert h3
        cases dictLookup reg d <;> simp
      · rw [if_neg hld]
        exact hreg ℓ h1 h2
    obtain ⟨reg2, hgo2, hlook2⟩ :=
      hgo q reg1 (fun ℓ h1 h2 => hsome1 ℓ (by omega) h2)
    have hsome2 : ∀ ℓ, d ≤ ℓ → ℓ < D → (dictLookup reg2 ℓ).isSome := by
      intro ℓ h1 h2
      rw [hlook2 ℓ]
      by_cases hc : d + 1 ≤ ℓ ∧ ℓ < D
      · rw [if_pos hc]
        have h3 := hsome1 ℓ h1 h2
        revert h3
        cases dictLookup reg1 ℓ <;> simp
      · rw [if_neg hc]
        exact hsome1 ℓ h1 h2
    obtain ⟨reg3, hloop3, hlook3⟩ := ih reg2 hsome2
    refine ⟨reg3, ?_, fun k => ?_⟩
    · simp only [recurseLoop, hreg1, hgo2]
      exact hloop3
    · rw [hlook3 k, hlook2 k, hlook1 k]
      by_cases hk : k = d
      · subst hk
        have hf : ¬ (k + 1 ≤ k ∧ k < D) := by omega
        have ht : k ≤ k ∧ k < D := ⟨le_rfl, hd⟩
        simp only [if_pos rfl, if_pos ht, if_neg hf, Nat.sub_self]
        cases dictLookup reg k <;> simp [flatMap_levelBoxes_zero]
      · by_cases hkd : d + 1 ≤ k ∧ k < D
        · have h3 : d ≤ k ∧ k < D := ⟨by omega, hkd.2⟩
          simp only [if_neg hk, if_pos hkd, if_pos h3]
          cases dictLookup reg k <;> simp [List.flatMap_cons, List.append_assoc]
        · have h3 : ¬ (d ≤ k ∧ k < D) := by omega
          simp only [if_neg hk, if_neg hkd, if_neg h3]

/-- Invariant of `QuadTree.recurse` on a tree of total depth `D ≥ d`: with
enough fuel it succeeds and extends every level in `[d, D)` of the
registry by the boxes `b` contributes there, touching nothing else. -/
theorem recurse_spec (split : Box → List Box) (D : ℕ) :
    ∀ (fuel : ℕ) (b : Box) (d : ℕ) (reg : Registry Box),
      1 ≤ d → d ≤ D → D < fuel + d →
      (∀ ℓ, d ≤ ℓ → ℓ < D → (dictLookup reg ℓ).isSome) →
      ∃ reg', recurse split (D : ℤ) fuel b d reg = .ok reg' ∧
        ∀ k, dictLookup reg' k =
          if d ≤ k ∧ k < D then
            (dictLookup reg k).map (fun v => v ++ levelBoxes split b (k - d + 1))
          else dictLookup reg k := by
  intro fuel
  induction fuel with
  | zero => intro b d reg h1 h2 h3 _; omega
  | succ f ih =>
    intro b d reg h1 h2 h3 hreg
    by_cases hdD : d = D
    · subst hdD
      refine ⟨reg, by simp [recurse], fun k => ?_⟩
      rw [if_neg (by omega)]
    · have hdD' : d < D := by omega
      have hne : ¬ ((D : ℤ) = (d : ℕ)) := by omega
      have hgo : ∀ q reg0, (∀ ℓ, d + 1 ≤ ℓ → ℓ < D → (dictLookup reg0 ℓ).isSome) →
          ∃ reg', recurse split (D : ℤ) f q (d + 1) reg0 = .ok reg' ∧
            ∀ k, dictLookup reg' k =
              if d + 1 ≤ k ∧ k < D then
                (dictLookup reg0 k).map (fun v => v ++ levelBoxes split q (k - d))
              else dictLookup reg0 k := by
        intro q reg0 hs
        obtain ⟨reg', hok, hchar⟩ := ih q (d + 1) reg0 (by omega) (by omega) (by omega) hs
        refine ⟨reg', hok, fun k => ?_⟩
        rw [hchar k]
        by_cases hc : d + 1 ≤ k ∧ k < D
        · rw [if_pos hc, if_pos hc, (by omega : k - (d + 1) + 1 = k - d)]
        · rw [if_neg hc, if_neg hc]
      obtain ⟨reg', hok, hchar⟩ := recurseLoop_spec split D _ d hdD' hgo (split b) reg hreg
      refine ⟨reg', ?_, fun k => ?_⟩
      · simp only [recurse]
        rw [if_neg hne]
        exact hok
      · rw [hchar k]
        by_cases hc : d ≤ k ∧ k < D
        · rw [if_pos hc, if_pos hc, flatMap_levelBoxes_succ]
        · rw [if_neg hc, if_neg hc]

/-! ### Key preservation -/

theorem recurseLoop_keys (go : Box → Registry Box → Except PyErr (Registry Box))
    (hgo : ∀ q r r', go q r = .ok r' → dictKeys r' = dictKeys r) :
    ∀ (qs : List Box) (d : ℕ) (reg reg' : Registry Box),
      recurseLoop go qs d reg = .ok reg' → dictKeys reg' = dictKeys reg := by
  intro qs
  induction qs with
  | nil =>
    intro d reg reg' h
    simp only [recurseLoop, Except.ok.injEq] at h
    rw [h]
  | cons q rest ih =>
    intro d reg reg' h
    cases happ : dictAppendAt reg d q with
    | none => simp [recurseLoop, happ] at h
    | some reg1 =>
      cases hrec : go q reg1 with
      | error e => simp [recurseLoop, happ, hrec] at h
      | ok reg2 =>
        simp only [recurseLoop, happ, hrec] at h
        rw [ih d reg2 reg' h, hgo q reg1 reg2 hrec, dictKeys_dictAppendAt happ]

theorem recurse_keys (split : Box → List Box) (sd : ℤ) :
    ∀ (fuel : ℕ) (b : Box) (d : ℕ) (reg reg' : Registry Box),
      recurse split sd fuel b d reg = .ok reg' → dictKeys reg' = dictKeys reg := by
  intro fuel
  induction fuel with
  | zero => intro b d reg reg' h; simp [recurse] at h
  | succ f ih =>
    intro b d reg reg' h
    simp only [recurse] at h
    by_cases hsd : sd = (d : ℤ)
    · rw [if_pos hsd, Except.ok.injEq] at h
      rw [h]
    · rw [if_neg hsd] at h
      exact recurseLoop_keys _ (fun q r r' hq => ih q (d + 1) r r' hq) (split b) d reg reg' h

/-! ### Master theorem: the registry a successful construction builds -/

theorem QuadTree.new_spec (split : Box → List Box) (bbox : Box) (D : ℕ) (hD : 1 ≤ D) :
    ∃ qt : QuadTree Box, QuadTree.new split bbox (D : ℤ) = .ok qt ∧
      qt.depth = (D : ℤ) ∧
      dictKeys qt.quadrants = List.range D ∧
      ∀ k, dictLookup qt.quadrants k =
        if k < D then some (levelBoxes split bbox k) else none := by
  have hinit := initQuads_eq bbox D hD
  have hlook0 : ∀ k, dictLookup (initQuads bbox (D : ℤ)) k =
      if k < D then some (if k = 0 then [bbox] else []) else none := by
    intro k
    rw [hinit, dictLookup_range_map]
  have hkeys0 : dictKeys (initQuads bbox (D : ℤ)) = List.range D := by
    rw [hinit]
    simp [dictKeys, List.map_map, Function.comp_def]
  have hsome : ∀ ℓ, 1 ≤ ℓ → ℓ < D → (dictLookup (initQuads bbox (D : ℤ)) ℓ).isSome := by
    intro ℓ h1 h2
    rw [hlook0]
    simp [h2]
  obtain ⟨reg', hok, hchar⟩ :=
    recurse_spec split D (D + 1) bbox 1 (initQuads bbox (D : ℤ)) le_rfl hD (by omega) hsome
  refine ⟨⟨reg', (D : ℤ)⟩, ?_, rfl, ?_, fun k => ?_⟩
  · simp only [QuadTree.new, Int.toNat_natCast]
    rw [hok]
    rfl
  · exact (recurse_keys split (D : ℤ) (D + 1) bbox 1 _ reg' hok).trans hkeys0
  · show dictLookup reg' k = _
    rw [hchar k, hlook0 k]
    by_cases hkD : k < D
    · by_cases hk1 : 1 ≤ k
      · rw [if_pos ⟨hk1, hkD⟩, if_pos hkD, if_pos hkD, if_neg (by omega : ¬ k = 0),
          (by omega : k - 1 + 1 = k)]
        simp
      · have hk0 : k = 0 := by omega
        subst hk0
        rw [if_neg (by omega : ¬ (1 ≤ 0 ∧ 0 < D)), if_pos hkD, if_pos hkD, if_pos rfl]
        rfl
    · rw [if_neg (by omega : ¬ (1 ≤ k ∧ k < D)), if_neg hkD, if_neg hkD]

/-! ### Counting and measuring the boxes of a level -/

theorem length_levelBoxes (split : Box → List Box) (c : ℕ)
    (hsplit : ∀ b, (split b).length = c) (b : Box) (k : ℕ) :
    (levelBoxes split b k).length = c ^ k := by
  induction k with
  | zero => simp [levelBoxes]
  | succ k ih =>
    have h1 : levelBoxes split b (k + 1) = (levelBoxes split b k).flatMap split := rfl
    rw [h1, List.length_flatMap]
    have h2 : List.map (List.length ∘ split) (levelBoxes split b k) =
        List.map (fun _ => c) (levelBoxes split b k) :=
      List.map_congr_left (fun a _ => hsplit a)
    rw [h2, List.map_const', List.sum_replicate, smul_eq_mul, ih, pow_succ]

theorem sum_area_levelBoxes (split : Box → List Box) (area : Box → ℚ)
    (hpart : ∀ b, ((split b).map area).sum = area b) (b : Box) (k : ℕ) :
    ((levelBoxes split b k).map area).sum = area b := by
  induction k with
  | zero => simp [levelBoxes]
  | succ k ih =>
    have h1 : levelBoxes split b (k + 1) = (levelBoxes split b k).flatMap split := rfl
    rw [h1, List.map_flatMap]
    have h2 : ∀ l : List Box,
        (l.flatMap (fun a => (split a).map area)).sum =
          (l.map (fun a => ((split a).map area).sum)).sum := by
      intro l
      induction l with
      | nil => simp
      | cons x xs ihl => simp [List.flatMap_cons, ihl]
    rw [h2, List.map_congr_left (fun a _ => hpart a), ih]

/-! ### Claim theorems -/

/-- C1: for every root box and every integer depth ≥ 1, provided the
splitting collaborator always yields exactly four sub-boxes, construction
succeeds and the registry returned by quadrants has keys exactly the
depths 0..depth-1, level 0 holds exactly the one root box, every level d
with 0 < d < depth holds exactly 4 ^ d boxes, and depth-1 construction
populates only level 0 with the root box and produces no level 1. -/
theorem C1_quadrants_shape (split : Box → List Box) (bbox : Box) (D : ℕ)
    (hD : 1 ≤ D) (hsplit : ∀ b, (split b).length = 4) :
    ∃ qt : QuadTree Box, QuadTree.new split bbox (D : ℤ) = .ok qt ∧
      dictKeys qt.quadrants = List.range D ∧
      dictLookup qt.quadrants 0 = some [bbox] ∧
      (∀ d, 0 < d → d < D →
        ∃ l, dictLookup qt.quadrants d = some l ∧ l.length = 4 ^ d) ∧
      (D = 1 → qt.quadrants = [(0, [bbox])]) := by
  obtain ⟨qt, hok, _, hkeys, hchar⟩ := QuadTree.new_spec split bbox D hD
  refine ⟨qt, hok, hkeys, ?_, fun d h1 h2 => ?_, fun h1 => ?_⟩
  · rw [hchar 0, if_pos (by omega)]
    rfl
  · exact ⟨levelBoxes split bbox d, by rw [hchar d, if_pos h2],
      length_levelBoxes split 4 hsplit bbox d⟩
  · subst h1
    have h0 : dictKeys qt.quadrants = [0] := by simpa using hkeys
    have hl0 : dictLookup qt.quadrants 0 = some [bbox] := by
      rw [hchar 0, if_pos (by omega)]
      rfl
    cases hq : qt.quadrants with
    | nil => rw [hq] at h0; simp [dictKeys] at h0
    | cons p rest =>
      obtain ⟨a, v⟩ := p
      cases rest with
      | cons p2 r2 => rw [hq] at h0; simp [dictKeys] at h0
      | nil =>
        rw [hq] at h0 hl0
        have ha : a = 0 := by simpa [dictKeys] using h0
        subst ha
        have hv : v = [bbox] := by simpa [dictLookup] using hl0
        rw [hv]

/-- C1 witness: a 4-way splitter on a unit box type at depth 2. -/
theorem C1_quadrants_shape_witness :
    ((1 : ℕ) ≤ 2 ∧ ∀ b : Unit, ((fun _ : Unit => [(), (), (), ()]) b).length = 4) ∧
      ∃ qt : QuadTree Unit,
        QuadTree.new (fun _ : Unit => [(), (), (), ()]) () ((2 : ℕ) : ℤ) = .ok qt ∧
        dictKeys qt.quadrants = List.range 2 ∧
        dictLookup qt.quadrants 0 = some [()] ∧
        (∀ d, 0 < d → d < 2 →
          ∃ l, dictLookup qt.quadrants d = some l ∧ l.length = 4 ^ d) ∧
        ((2 : ℕ) = 1 → qt.quadrants = [(0, [()])]) :=
  ⟨⟨by omega, fun _ => rfl⟩,
    C1_quadrants_shape (fun _ : Unit => [(), (), (), ()]) () 2 (by omega) (fun _ => rfl)⟩

/-- C2: for every root box and depth ≥ 1, the sequence at each populated
level d (1 ≤ d < depth) is the previous level's sequence flat-mapped
through the splitting capability: the four children of each parent are
contiguous, in the order the splitter yields them, and parent groups
appear in the order their parents occur at level d-1. -/
theorem C2_preorder_grouped (split : Box → List Box) (bbox : Box) (D : ℕ)
    (hD : 1 ≤ D) :
    ∃ qt : QuadTree Box, QuadTree.new split bbox (D : ℤ) = .ok qt ∧
      ∀ d, 1 ≤ d → d < D → ∃ prev cur,
        dictLookup qt.quadrants (d - 1) = some prev ∧
        dictLookup qt.quadrants d = some cur ∧
        cur = prev.flatMap split := by
  obtain ⟨qt, hok, _, _, hchar⟩ := QuadTree.new_spec split bbox D hD
  refine ⟨qt, hok, fun d h1 h2 => ?_⟩
  refine ⟨levelBoxes split bbox (d - 1), levelBoxes split bbox d, ?_, ?_, ?_⟩
  · rw [hchar (d - 1), if_pos (by omega)]
  · rw [hchar d, if_pos h2]
  · obtain ⟨j, rfl⟩ : ∃ j, d = j + 1 := ⟨d - 1, by omega⟩
    simp [levelBoxes]

/-- C2 witness: a 4-way splitter on a unit box type at depth 2. -/
theorem C2_preorder_grouped_witness :
    ((1 : ℕ) ≤ 2) ∧
      ∃ qt : QuadTree Unit,
        QuadTree.new (fun _ : Unit => [(), (), (), ()]) () ((2 : ℕ) : ℤ) = .ok qt ∧
        ∀ d, 1 ≤ d → d < 2 → ∃ prev cur,
          dictLookup qt.quadrants (d - 1) = some prev ∧
          dictLookup qt.quadrants d = some cur ∧
          cur = prev.flatMap (fun _ : Unit => [(), (), (), ()]) :=
  ⟨by omega, C2_preorder_grouped (fun _ : Unit => [(), (), (), ()]) () 2 (by omega)⟩

/-- C3: assuming the splitting collaborator's contract that the sub-boxes
of any box have areas summing to the box's area, every populated level of
a constructed registry has box areas summing to the root box's area. -/
theorem C3_area_preserved (split : Box → List Box) (bbox : Box) (D : ℕ)
    (area : Box → ℚ) (hD : 1 ≤ D)
    (hpart : ∀ b, ((split b).map area).sum = area b) :
    ∃ qt : QuadTree Box, QuadTree.new split bbox (D : ℤ) = .ok qt ∧
      ∀ d l, dictLookup qt.quadrants d = some l → (l.map area).sum = area bbox := by
  obtain ⟨qt, hok, _, _, hchar⟩ := QuadTree.new_spec split bbox D hD
  refine ⟨qt, hok, fun d l hl => ?_⟩
  rw [hchar d] at hl
  by_cases hd : d < D
  · rw [if_pos hd, Option.some_inj] at hl
    rw [← hl]
    exact sum_area_levelBoxes split area hpart bbox d
  · rw [if_neg hd] at hl
    exact absurd hl (by simp)

/-- C3 witness: boxes are rationals standing for their areas, the splitter
quarters a box into four equal parts, root area 1, depth 2. -/
theorem C3_area_preserved_witness :
    ((1 : ℕ) ≤ 2 ∧
      ∀ b : ℚ, (((fun q : ℚ => [q / 4, q / 4, q / 4, q / 4]) b).map id).sum = id b) ∧
      ∃ qt : QuadTree ℚ,
        QuadTree.new (fun q : ℚ => [q / 4, q / 4, q / 4, q / 4]) 1 ((2 : ℕ) : ℤ) = .ok qt ∧
        ∀ d l, dictLookup qt.quadrants d = some l → (l.map id).sum = id (1 : ℚ) :=
  ⟨⟨by omega, fun b => by simp; ring⟩,
    C3_area_preserved (fun q : ℚ => [q / 4, q / 4, q / 4, q / 4]) 1 2 id (by omega)
      (fun b => by simp; ring)⟩

/-- C8 counterexample: construction with depth 0 does not reject the input
before recursing.  With a splitter returning no sub-boxes it does not fail
at all and silently builds the degenerate registry with only level 0; with
the contractual 4-way splitter it fails, but only with the KeyError raised
while appending to the missing level-1 slot inside the recursion — the
outcome depends on the splitter's output, so the recursion was entered. -/
theorem C8_counterexample :
    QuadTree.new (fun _ : Unit => ([] : List Unit)) () 0 = .ok ⟨[(0, [()])], 0⟩ ∧
      QuadTree.new (fun _ : Unit => [(), (), (), ()]) () 0 = .error (.keyError 1) :=
  ⟨rfl, rfl⟩

/-- C8 amended: for every depth < 1, construction performs no depth
validation and enters the recursion; if the splitter yields any sub-box of
the root it fails with a KeyError on the missing level-1 slot (after
level 0 was already populated), and if the splitter yields no sub-boxes it
silently succeeds with the degenerate registry holding only the root. -/
theorem C8_amended (split : Box → List Box) (bbox : Box) (depth : ℤ)
    (h : depth ≤ 0) :
    (split bbox ≠ [] → QuadTree.new split bbox depth = .error (.keyError 1)) ∧
      (split bbox = [] →
        QuadTree.new split bbox depth = .ok ⟨[(0, [bbox])], depth⟩) := by
  have h0 : depth.toNat = 0 := Int.toNat_eq_zero.mpr h
  have hinit := initQuads_nonpos bbox depth h
  have hne : ¬ (depth = ((1 : ℕ) : ℤ)) := by omega
  constructor
  · intro hsp
    cases hq : split bbox with
    | nil => exact absurd hq hsp
    | cons q rest =>
      simp only [QuadTree.new, h0, hinit, recurse, if_neg hne, hq, recurseLoop,
        dictAppendAt]
      rfl
  · intro hsp
    simp only [QuadTree.new, h0, hinit, recurse, if_neg hne, hsp, recurseLoop]
    rfl

/-- C8 amended witness: depth 0 with the 4-way unit splitter. -/
theorem C8_amended_witness :
    ((0 : ℤ) ≤ 0) ∧ ([(), (), (), ()] ≠ ([] : List Unit)) ∧
      QuadTree.new (fun _ : Unit => [(), (), (), ()]) () 0 = .error (.keyError 1) :=
  ⟨le_rfl, by simp,
    (C8_amended (fun _ : Unit => [(), (), (), ()]) () 0 le_rfl).1 (by simp)⟩

/-- C9 counterexample: a splitter returning three sub-boxes is not
surfaced as an error — construction succeeds and the three boxes are
accepted verbatim into level 1 of the registry. -/
theorem C9_counterexample :
    QuadTree.new (fun _ : Unit => [(), (), ()]) () 2 =
      .ok ⟨[(0, [()]), (1, [(), (), ()])], 2⟩ :=
  rfl

/-- C9 amended: construction performs no arity check on the splitting
collaborator's output: whatever list of sub-boxes it returns is appended
as-is (no truncation, padding, or error), so a uniformly c-way splitter
yields a successful construction with exactly c ^ d boxes at every
populated level d. -/
theorem C9_amended (split : Box → List Box) (bbox : Box) (D c : ℕ)
    (hD : 1 ≤ D) (hsplit : ∀ b, (split b).length = c) :
    ∃ qt : QuadTree Box, QuadTree.new split bbox (D : ℤ) = .ok qt ∧
      ∀ d, d < D → ∃ l, dictLookup qt.quadrants d = some l ∧ l.length = c ^ d := by
  obtain ⟨qt, hok, _, _, hchar⟩ := QuadTree.new_spec split bbox D hD
  exact ⟨qt, hok, fun d hd =>
    ⟨levelBoxes split bbox d, by rw [hchar d, if_pos hd],
      length_levelBoxes split c hsplit bbox d⟩⟩

/-- C9 amended witness: the 3-way unit splitter at depth 2. -/
theorem C9_amended_witness :
    ((1 : ℕ) ≤ 2 ∧ ∀ b : Unit, ((fun _ : Unit => [(), (), ()]) b).length = 3) ∧
      ∃ qt : QuadTree Unit,
        QuadTree.new (fun _ : Unit => [(), (), ()]) () ((2 : ℕ) : ℤ) = .ok qt ∧
        ∀ d, d < 2 → ∃ l, dictLookup qt.quadrants d = some l ∧ l.length = 3 ^ d :=
  ⟨⟨by omega, fun _ => rfl⟩,
    C9_amended (fun _ : Unit => [(), (), ()]) () 2 3 (by omega) (fun _ => rfl)⟩

/-- C5: no implementation of at_least with the program's shape can satisfy
the claim at every n ≥ 1.  The code computes a function of the binary64
conversion of its argument (`math.log` converts the int to a double
first), and that conversion identifies 4 ^ 30 and 4 ^ 30 + 1, which the
claim sends to the different values 4 ^ 30 and 4 ^ 31: whatever the
floating-point logarithm returns, at least one of the two inputs gets a
wrong answer. -/
theorem C5_float_at_least_impossible (F : ℕ → ℚ) :
    ¬ (at_least_spec (4 ^ 30) (F (floatOfNat (4 ^ 30))) ∧
        at_least_spec (4 ^ 30 + 1) (F (floatOfNat (4 ^ 30 + 1)))) := by
  have hcollapse : floatOfNat (4 ^ 30 + 1) = floatOfNat (4 ^ 30) := by decide
  rintro ⟨⟨_, _, hmin⟩, ⟨_, hge, _⟩⟩
  rw [hcollapse] at hge
  have h30 : F (floatOfNat (4 ^ 30)) ≤ 4 ^ 30 := hmin 30 (by norm_num)
  have hcontra : ((4 ^ 30 + 1 : ℕ) : ℚ) ≤ (4 : ℚ) ^ 30 := hge.trans h30
  norm_num at hcontra

/-- C6: no implementation of at_most with the program's shape can satisfy
the claim at every n ≥ 1.  The binary64 conversion the code applies first
identifies 4 ^ 30 - 1 and 4 ^ 30, which the claim sends to the different
values 4 ^ 29 and 4 ^ 30: whatever the floating-point logarithm returns,
at least one of the two inputs gets a wrong answer. -/
theorem C6_float_at_most_impossible (F : ℕ → ℚ) :
    ¬ (at_most_spec (4 ^ 30 - 1) (F (floatOfNat (4 ^ 30 - 1))) ∧
        at_most_spec (4 ^ 30) (F (floatOfNat (4 ^ 30)))) := by
  have hcollapse : floatOfNat (4 ^ 30 - 1) = floatOfNat (4 ^ 30) := by decide
  rintro ⟨⟨_, hle, _⟩, ⟨_, _, hmax⟩⟩
  rw [hcollapse] at hle
  have h30 : (4 : ℚ) ^ 30 ≤ F (floatOfNat (4 ^ 30)) := hmax 30 (by norm_num)
  have hcontra : (4 : ℚ) ^ 30 ≤ ((4 ^ 30 - 1 : ℕ) : ℚ) := h30.trans hle
  rw [Nat.cast_sub (by norm_num)] at hcontra
  norm_num at hcontra

/-- C7: no implementation of level with the program's shape can satisfy
the claim at every n ≥ 1.  The binary64 conversion the code applies first
identifies 4 ^ 30 and 4 ^ 30 + 1, but the claim forces level (4 ^ 30) ≤ 30
(via 4 ^ (level - 1) < n) and level (4 ^ 30 + 1) ≥ 31 (via 4 ^ level ≥ n):
whatever the floating-point logarithm returns, at least one of the two
inputs gets a wrong answer. -/
theorem C7_float_level_impossible (G : ℕ → ℤ) :
    ¬ (level_spec (4 ^ 30) (G (floatOfNat (4 ^ 30))) ∧
        level_spec (4 ^ 30 + 1) (G (floatOfNat (4 ^ 30 + 1)))) := by
  have hcollapse : floatOfNat (4 ^ 30 + 1) = floatOfNat (4 ^ 30) := by decide
  rintro ⟨⟨_, hlt⟩, ⟨hge, _⟩⟩
  rw [hcollapse] at hge
  have h31 : ¬ G (floatOfNat (4 ^ 30)) ≤ 30 := by
    intro hle
    have hmono : (4 : ℚ) ^ G (floatOfNat (4 ^ 30)) ≤ (4 : ℚ) ^ (30 : ℤ) :=
      zpow_le_zpow_right₀ (by norm_num) hle
    have h4 : ((4 ^ 30 + 1 : ℕ) : ℚ) ≤ (4 : ℚ) ^ (30 : ℤ) := hge.trans hmono
    rw [(by rfl : ((30 : ℤ)) = ((30 : ℕ) : ℤ)), zpow_natCast] at h4
    norm_num at h4
  have hmono2 : (4 : ℚ) ^ (30 : ℤ) ≤ (4 : ℚ) ^ (G (floatOfNat (4 ^ 30)) - 1) :=
    zpow_le_zpow_right₀ (by norm_num) (by omega)
  have h5 : (4 : ℚ) ^ (30 : ℤ) < ((4 ^ 30 : ℕ) : ℚ) :=
    lt_of_le_of_lt hmono2 (hlt (by norm_num))
  rw [(by rfl : ((30 : ℤ)) = ((30 : ℕ) : ℤ)), zpow_natCast] at h5
  norm_num at h5

/-- C10: for every n ≥ 1 the helpers are mutually consistent:
at_least n equals 4 raised to level n, both deriving the same exponent
from the same ceiling base-4 logarithm of n. -/
theorem C10_at_least_eq_pow_level (n : ℕ) (hn : 1 ≤ n) :
    QuadTree.at_least n = 4 ^ QuadTree.level n :=
  rfl

/-- C10 witness: the theorem applied at n = 900. -/
theorem C10_at_least_eq_pow_level_witness :
    (1 : ℕ) ≤ 900 ∧ QuadTree.at_least 900 = 4 ^ QuadTree.level 900 :=
  ⟨by omega, C10_at_least_eq_pow_level 900 (by omega)⟩

end Quadtree
